import Mathlib

/-!
Verification of the leave-planning tool in `festival.py`.

The program is a small pure pipeline over integers and (Python) floats:

* `w n = 1.3 ** max(n - 5, 0)` — per-block fatigue weight;
* `work vacation_days` — contiguous-workday block lengths left after
  removing the leave days from the fixed base workday set
  `set(range(9, 15)) | set(range(25, 29))`;
* `score vacation_days p alpha beta = 1 / (alpha * fatigue + beta * disturb)`;
* `generate_plans()` — the four legal 3-day leave plans;
* `main` — scores every plan and stably sorts descending by score.

Days are modelled as `ℕ` and float arithmetic as exact rational
arithmetic over `ℚ` (all constants involved, `1.3`, probabilities, the
weights, are treated as exact rationals).  The division `1.0 /
total_cost` raises `ZeroDivisionError` in Python exactly when
`total_cost = 0`, so `score` returns `Option ℚ`, `none` marking that
fatal error.
-/

namespace Festival

/-- Source `w` (festival.py lines 28-30): `1.3 ** max(n - 5, 0)` as an
exact rational.  `n - 5` is truncated subtraction on `ℕ`, which agrees
with Python's `max(n - 5, 0)` for the natural-number block lengths `work`
produces. -/
def w (n : ℕ) : ℚ := (13 / 10) ^ (max (n - 5) 0)

/-- Source `base_work_days` (festival.py line 43):
`set(range(9, 15)) | set(range(25, 29))`, i.e. {9,...,14} ∪ {25,...,28}.
A set of naturals is represented by its ascending duplicate-free
enumeration, which is what `sorted` recovers from the Python set. -/
def base_work_days : List ℕ := List.range' 9 6 ++ List.range' 25 4

/-- Source `actual_work_days` (festival.py line 44):
`sorted(base_work_days - set(vacation_days))`.  Removing a set of days
from the fixed base set and sorting the result is exactly filtering the
ascending enumeration of the base set; sortedness and the membership
characterisation are proved below (`actual_work_days_sorted`,
`mem_actual_work_days`). -/
def actual_work_days (vacation_days : List ℕ) : List ℕ :=
  base_work_days.filter (fun d => decide (d ∉ vacation_days))

/-- Source loop of `work` (festival.py lines 49-58): `start`/`prev` are
the loop variables, the emitted list is `blocks`.  Each finished block
contributes `prev - start + 1`; the final block is emitted after the
loop (the `[]` case). -/
def blocksLoop (start prev : ℕ) : List ℕ → List ℕ
  | [] => [prev - start + 1]
  | day :: rest =>
    if day = prev + 1 then blocksLoop start day rest
    else (prev - start + 1) :: blocksLoop day day rest

/-- Source `work` (festival.py lines 33-59): block lengths of maximal
runs of consecutive remaining workdays; `[]` when no workday remains. -/
def work (vacation_days : List ℕ) : List ℕ :=
  match actual_work_days vacation_days with
  | [] => []
  | start :: rest => blocksLoop start start rest

/-- Source local `fatigue` (festival.py line 75): `sum(w(n) for n in work(vacation_days))`. -/
def fatigue (vacation_days : List ℕ) : ℚ := ((work vacation_days).map w).sum

/-- Source local `disturb` (festival.py line 76):
`sum(1 - p_dict[day] for day in vacation_days)`.  The probability map is
modelled as a total function `ℕ → ℚ`; the caller-side coverage
precondition appears as hypotheses on the days actually used. -/
def disturb (vacation_days : List ℕ) (p : ℕ → ℚ) : ℚ :=
  (vacation_days.map (fun day => 1 - p day)).sum

/-- Source local `total_cost` (festival.py line 78): `alpha * fatigue + beta * disturb`. -/
def total_cost (vacation_days : List ℕ) (p : ℕ → ℚ) (alpha beta : ℚ) : ℚ :=
  alpha * fatigue vacation_days + beta * disturb vacation_days p

/-- The rational value `1.0 / total_cost` returned by `score` whenever
the division does not fault. -/
def scoreVal (vacation_days : List ℕ) (p : ℕ → ℚ) (alpha beta : ℚ) : ℚ :=
  1 / total_cost vacation_days p alpha beta

/-- Source `score` (festival.py lines 62-79).  Python's
`1.0 / total_cost` raises `ZeroDivisionError` exactly when
`total_cost = 0`; that fatal outcome is `none`, every other input
returns the ordinary value `1 / total_cost` (negative if `total_cost`
is negative). -/
def score (vacation_days : List ℕ) (p : ℕ → ℚ) (alpha beta : ℚ) : Option ℚ :=
  if total_cost vacation_days p alpha beta = 0 then none
  else some (scoreVal vacation_days p alpha beta)

/-- Source `generate_plans` (festival.py lines 82-103).  `pre_days[-k_pre:]`
is the last `k_pre` elements, i.e. `drop (length - k_pre)`; the source
guards both slices by `k_pre > 0` / `k_post > 0` and skips (`continue`)
when a slice would be out of range, modelled by `filterMap`. -/
def generate_plans : List (List ℕ) :=
  let pre_days : List ℕ := [12, 13, 14]
  let post_days : List ℕ := [24, 25, 26]
  let total_vac : ℕ := 3
  (List.range (total_vac + 1)).filterMap (fun k_pre =>
    let k_post := total_vac - k_pre
    if k_pre > pre_days.length ∨ k_post > post_days.length then none
    else
      let pre_part := if k_pre > 0 then pre_days.drop (pre_days.length - k_pre) else []
      let post_part := if k_post > 0 then post_days.take k_post else []
      some (pre_part ++ post_part))

/-- Source `candidate_days` (festival.py line 172): the fixed 6-day
candidate pool used by `main`. -/
def candidate_days : List ℕ := [12, 13, 14, 24, 25, 26]

/-- Source `scored` (festival.py line 205):
`[(plan, score(plan, P, alpha, beta)) for plan in plans]`, with the
score value the rational `1 / total_cost` that `score` returns when it
does not fault. -/
def scoredList (p : ℕ → ℚ) (alpha beta : ℚ) : List (List ℕ × ℚ) :=
  generate_plans.map (fun plan => (plan, scoreVal plan p alpha beta))

/-- The comparison underlying `scored.sort(key=lambda x: x[1], reverse=True)`:
`x` may precede `y` exactly when `x`'s score is ≥ `y`'s. -/
def scoreGE (x y : List ℕ × ℚ) : Prop := y.2 ≤ x.2

instance : DecidableRel scoreGE := fun x y => inferInstanceAs (Decidable (y.2 ≤ x.2))

instance : IsTotal (List ℕ × ℚ) scoreGE := ⟨fun x y => le_total y.2 x.2⟩

instance : IsTrans (List ℕ × ℚ) scoreGE := ⟨fun _ _ _ h1 h2 => le_trans h2 h1⟩

/-- Source `scored.sort(key=lambda x: x[1], reverse=True)` (festival.py
line 206).  Python's `list.sort` is a stable sort, and with
`reverse=True` it orders descending by key while equal keys keep their
original relative order; its denotation is stable insertion sort with
respect to `scoreGE`. -/
def rankPlans (p : ℕ → ℚ) (alpha beta : ℚ) : List (List ℕ × ℚ) :=
  List.insertionSort scoreGE (scoredList p alpha beta)

/-- Length of the longest contiguous-workday block a plan leaves behind. -/
def maxBlock (vacation_days : List ℕ) : ℕ := (work vacation_days).foldr max 0

/-- A list of days that is a run of consecutive integers. -/
def isConsecRun (c : List ℕ) : Prop := List.Chain' (fun a b => b = a + 1) c

/-- Two runs that cannot be merged: the first ends strictly more than one
below the start of the second. -/
def gapRel (c d : List ℕ) : Prop := ∀ a ∈ c.getLast?, ∀ b ∈ d.head?, a + 1 < b

/-! ### Evaluation lemmas -/

lemma generate_plans_eq :
    generate_plans = [[24, 25, 26], [14, 24, 25], [13, 14, 24], [12, 13, 14]] := by decide

lemma work_plan_post : work [24, 25, 26] = [6, 2] := by decide

lemma work_plan_one_pre : work [14, 24, 25] = [5, 3] := by decide

lemma work_plan_two_pre : work [13, 14, 24] = [4, 4] := by decide

lemma work_plan_all_pre : work [12, 13, 14] = [3, 4] := by decide

lemma fatigue_plan_post : fatigue [24, 25, 26] = 23 / 10 := by
  rw [fatigue, work_plan_post]; norm_num [w]

lemma fatigue_plan_one_pre : fatigue [14, 24, 25] = 2 := by
  rw [fatigue, work_plan_one_pre]; norm_num [w]

lemma fatigue_plan_two_pre : fatigue [13, 14, 24] = 2 := by
  rw [fatigue, work_plan_two_pre]; norm_num [w]

lemma fatigue_plan_all_pre : fatigue [12, 13, 14] = 2 := by
  rw [fatigue, work_plan_all_pre]; norm_num [w]

@[simp] lemma disturb_nil (p : ℕ → ℚ) : disturb [] p = 0 := rfl

@[simp] lemma disturb_cons (d : ℕ) (v : List ℕ) (p : ℕ → ℚ) :
    disturb (d :: v) p = (1 - p d) + disturb v p := by
  simp [disturb]

lemma disturb_nonneg (v : List ℕ) (p : ℕ → ℚ) (hp : ∀ d ∈ v, p d ≤ 1) :
    0 ≤ disturb v p := by
  induction v with
  | nil => simp
  | cons d v ih =>
    have h1 : p d ≤ 1 := hp d (List.mem_cons_self d v)
    have h2 : 0 ≤ disturb v p := ih (fun e he => hp e (List.mem_cons_of_mem d he))
    rw [disturb_cons]
    linarith

lemma score_eq_some (v : List ℕ) (p : ℕ → ℚ) (alpha beta : ℚ)
    (h : total_cost v p alpha beta ≠ 0) :
    score v p alpha beta = some (scoreVal v p alpha beta) := by
  rw [score, if_neg h]

/-! ### Runs of consecutive integers -/

lemma isConsecRun_range' (s n : ℕ) : isConsecRun (List.range' s n) := by
  cases n with
  | zero => simp [isConsecRun, List.Chain']
  | succ m =>
    rw [List.range'_succ]
    exact List.chain_succ_range' s m 1

lemma range'_head? (s n : ℕ) (h : n ≠ 0) : (List.range' s n).head? = some s := by
  cases n with
  | zero => exact absurd rfl h
  | succ m => rw [List.range'_succ]; rfl

lemma range'_getLast? (s n : ℕ) : (List.range' s (n + 1)).getLast? = some (s + n) := by
  rw [List.range'_concat, List.getLast?_concat]
  norm_num

/-- Invariant of the `work` loop: starting from a pending run
`[start..prev]` and a strictly increasing remainder `l`, `blocksLoop`
emits exactly the lengths of a partition of `range' start (prev+1-start)
++ l` into nonempty maximal runs of consecutive integers, in order. -/
lemma blocksLoop_spec (l : List ℕ) : ∀ start prev : ℕ, start ≤ prev →
    List.Chain' (· < ·) (prev :: l) →
    ∃ c L, blocksLoop start prev l = ((c :: L).map List.length) ∧
      (c :: L).flatten = List.range' start (prev + 1 - start) ++ l ∧
      c.head? = some start ∧
      (∀ b ∈ c :: L, b ≠ [] ∧ isConsecRun b) ∧
      List.Chain' gapRel (c :: L) := by
  induction l with
  | nil =>
    intro start prev hsp _
    refine ⟨List.range' start (prev + 1 - start), [], ?_, by simp, ?_, ?_, by simp⟩
    · simp only [blocksLoop, List.map_cons, List.map_nil, List.length_range']
      congr 1
      omega
    · exact range'_head? _ _ (by omega)
    · intro b hb
      rw [List.mem_singleton] at hb
      subst hb
      refine ⟨?_, isConsecRun_range' _ _⟩
      rw [Ne, List.range'_eq_nil]
      omega
  | cons day rest ih =>
    intro start prev hsp hchain
    rw [List.chain'_cons] at hchain
    obtain ⟨hlt, hchain'⟩ := hchain
    by_cases hd : day = prev + 1
    · subst hd
      obtain ⟨c, L, h1, h2, h3, h4, h5⟩ := ih start (prev + 1) (by omega) hchain'
      refine ⟨c, L, ?_, ?_, h3, h4, h5⟩
      · simp only [blocksLoop, if_pos rfl]
        exact h1
      · rw [h2]
        have hsplit : List.range' start (prev + 1 + 1 - start) =
            List.range' start (prev + 1 - start) ++ [prev + 1] := by
          have he : prev + 1 + 1 - start = (prev + 1 - start) + 1 := by omega
          rw [he, List.range'_concat]
          congr 2
          omega
        rw [hsplit, List.append_assoc, List.singleton_append]
    · have hgt : prev + 1 < day := by omega
      obtain ⟨c, L, h1, h2, h3, h4, h5⟩ := ih day day le_rfl hchain'
      refine ⟨List.range' start (prev + 1 - start), c :: L, ?_, ?_, ?_, ?_, ?_⟩
      · simp only [blocksLoop, if_neg hd, List.map_cons, List.length_range']
        rw [h1]
        simp only [List.map_cons]
        congr 2
        omega
      · show List.range' start (prev + 1 - start) ++ (c :: L).flatten = _
        rw [h2]
        have he : day + 1 - day = 1 := by omega
        rw [he]
        simp [List.range'_succ]
      · exact range'_head? _ _ (by omega)
      · intro b hb
        rcases List.mem_cons.mp hb with hb | hb
        · subst hb
          refine ⟨?_, isConsecRun_range' _ _⟩
          rw [Ne, List.range'_eq_nil]
          omega
        · exact h4 b hb
      · rw [List.chain'_cons]
        refine ⟨?_, h5⟩
        intro a ha b hb
        have he : prev + 1 - start = (prev - start) + 1 := by omega
        rw [he, range'_getLast?] at ha
        rw [h3] at hb
        simp only [Option.mem_def, Option.some_inj] at ha hb
        omega

lemma base_work_days_sorted : List.Sorted (· < ·) base_work_days := by decide

lemma actual_work_days_sorted (v : List ℕ) :
    List.Sorted (· < ·) (actual_work_days v) :=
  List.Pairwise.filter _ base_work_days_sorted

lemma mem_actual_work_days (v : List ℕ) (d : ℕ) :
    d ∈ actual_work_days v ↔ d ∈ base_work_days ∧ d ∉ v := by
  simp [actual_work_days]

lemma work_of_actual_nil (v : List ℕ) (h : actual_work_days v = []) :
    work v = [] := by
  unfold work
  rw [h]

lemma work_of_actual_cons (v : List ℕ) (start : ℕ) (rest : List ℕ)
    (h : actual_work_days v = start :: rest) :
    work v = blocksLoop start start rest := by
  unfold work
  rw [h]

/-! ### C1, C2, C9, C10 -/

/-- C1: with the claimed base workday sets, the all-pre plan `[12,13,14]`
should yield a pre block of length 3 and a post block of length 5 and
fatigue `w 3 + w 5 = 2`.  The code's base set is
`set(range(9,15)) | set(range(25,29))` = {9..14} ∪ {25..28} — the post
range holds only 4 days, contradicting the code's own inline comment
("9-14, 24-28") and its docstring ("5 days").  On the actual code the
blocks are `[3, 4]` (not `[3, 5]`), while the fatigue value still
equals 2 because `w 4 = w 5 = 1`. -/
theorem c1_work_all_pre_eval :
    work [12, 13, 14] = [3, 4] ∧ work [12, 13, 14] ≠ [3, 5] ∧
      fatigue [12, 13, 14] = 2 := by
  refine ⟨work_plan_all_pre, ?_, fatigue_plan_all_pre⟩
  rw [work_plan_all_pre]
  decide

/-- C2: `generate_plans` returns exactly 4 plans; each plan lists exactly
3 days in increasing order (hence no duplicates inside a plan), each
plan is a subset of the fixed 6-day candidate pool, and the 4 plans are
pairwise distinct. -/
theorem c2_generate_plans_contract :
    generate_plans.length = 4 ∧
      (∀ plan ∈ generate_plans,
        plan.length = 3 ∧ List.Sorted (· < ·) plan ∧ plan.Nodup ∧
          ∀ d ∈ plan, d ∈ candidate_days) ∧
      generate_plans.Nodup := by decide

theorem c2_witness :
    ([24, 25, 26] : List ℕ) ∈ generate_plans ∧
      (([24, 25, 26] : List ℕ).length = 3 ∧
        List.Sorted (· < ·) ([24, 25, 26] : List ℕ) ∧
        ([24, 25, 26] : List ℕ).Nodup ∧
        ∀ d ∈ ([24, 25, 26] : List ℕ), d ∈ candidate_days) :=
  ⟨by decide, c2_generate_plans_contract.2.1 [24, 25, 26] (by decide)⟩

/-- C9: a leave day `x` outside the base workday set has no effect on the
computed block structure: `work` returns the same list for `x :: v` as
for `v`. -/
theorem c9_outside_base_no_effect (v : List ℕ) (x : ℕ)
    (hx : x ∉ base_work_days) :
    work (x :: v) = work v := by
  have hfil : actual_work_days (x :: v) = actual_work_days v := by
    apply List.filter_congr
    intro d hd
    have hdx : d ≠ x := fun h => hx (h ▸ hd)
    simp [List.mem_cons, hdx]
  unfold work
  rw [hfil]

theorem c9_witness : work (24 :: [12]) = work [12] :=
  c9_outside_base_no_effect [12] 24 (by decide)

/-- C10: `generate_plans` returns exactly
`[[24,25,26],[14,24,25],[13,14,24],[12,13,14]]`, enumerated from the
all-post plan (`k_pre = 0`) up to the all-pre plan (`k_pre = 3`); the
post candidate pool is `[24, 25, 26]`, whose day 24 lies outside the
base workday set; and this enumeration order is the tie-breaking order
of the stable ranking sort: with a probability map making all four
total costs equal (to 4, so every score is 1/4), `rankPlans` returns
the scored plans exactly in enumeration order. -/
theorem c10_enumeration_order :
    generate_plans = [[24, 25, 26], [14, 24, 25], [13, 14, 24], [12, 13, 14]] ∧
      (24 ∈ candidate_days ∧ 24 ∉ base_work_days) ∧
      rankPlans (fun d => if d = 14 then 2 / 15 else 13 / 30) 1 1 =
        [([24, 25, 26], 1 / 4), ([14, 24, 25], 1 / 4),
          ([13, 14, 24], 1 / 4), ([12, 13, 14], 1 / 4)] := by
  refine ⟨generate_plans_eq, by decide, ?_⟩
  have hs : scoredList (fun d => if d = 14 then 2 / 15 else 13 / 30) 1 1 =
      [([24, 25, 26], 1 / 4), ([14, 24, 25], 1 / 4),
        ([13, 14, 24], 1 / 4), ([12, 13, 14], 1 / 4)] := by
    rw [scoredList, generate_plans_eq]
    simp only [List.map_cons, List.map_nil, scoreVal, total_cost,
      fatigue_plan_post, fatigue_plan_one_pre, fatigue_plan_two_pre,
      fatigue_plan_all_pre, disturb_cons, disturb_nil]
    norm_num
  rw [rankPlans, hs]
  apply List.Sorted.insertionSort_eq
  simp [List.sorted_cons, scoreGE]

/-- C5: for every sequence of leave days, `work` removes those days from
the fixed base workday set and sorts the remainder ascending (first two
conjuncts: `actual_work_days` is strictly sorted and contains exactly
the base workdays not on leave), partitions the remainder into maximal
runs of consecutive integers, and returns the run lengths in ascending
day order (the partition `L` concatenates, in order, to the sorted
remainder; every part is a nonempty consecutive run; adjacent parts
cannot be merged); when no workday remains it returns `[]`. -/
theorem c5_work_partition (v : List ℕ) :
    List.Sorted (· < ·) (actual_work_days v) ∧
      (∀ d, d ∈ actual_work_days v ↔ d ∈ base_work_days ∧ d ∉ v) ∧
      (actual_work_days v = [] → work v = []) ∧
      ∃ L : List (List ℕ),
        work v = L.map List.length ∧
        L.flatten = actual_work_days v ∧
        (∀ b ∈ L, b ≠ [] ∧ isConsecRun b) ∧
        List.Chain' gapRel L := by
  refine ⟨actual_work_days_sorted v, mem_actual_work_days v,
    work_of_actual_nil v, ?_⟩
  cases hrem : actual_work_days v with
  | nil =>
    exact ⟨[], by rw [work_of_actual_nil v hrem]; rfl, rfl, by simp, by simp⟩
  | cons start rest =>
    have hsorted := actual_work_days_sorted v
    rw [hrem] at hsorted
    have hchain : List.Chain' (· < ·) (start :: rest) :=
      List.Pairwise.chain' hsorted
    obtain ⟨c, L, h1, h2, h3, h4, h5⟩ :=
      blocksLoop_spec rest start start le_rfl hchain
    refine ⟨c :: L, ?_, ?_, h4, h5⟩
    · rw [work_of_actual_cons v start rest hrem]
      exact h1
    · rw [h2]
      simp [List.range'_succ]

theorem c5_witness :
    List.Sorted (· < ·) (actual_work_days [12, 13, 14]) ∧
      (∀ d, d ∈ actual_work_days [12, 13, 14] ↔
        d ∈ base_work_days ∧ d ∉ ([12, 13, 14] : List ℕ)) ∧
      (actual_work_days [12, 13, 14] = [] → work [12, 13, 14] = []) ∧
      ∃ L : List (List ℕ),
        work [12, 13, 14] = L.map List.length ∧
        L.flatten = actual_work_days [12, 13, 14] ∧
        (∀ b ∈ L, b ≠ [] ∧ isConsecRun b) ∧
        List.Chain' gapRel L :=
  c5_work_partition [12, 13, 14]

/-- C3: the claim reads that every `(plan, weights)` input with
`total_cost ≤ 0` is surfaced as a fatal computation error.  The code
only faults on `total_cost = 0` (Python's `ZeroDivisionError`); for
`total_cost < 0` (equally impossible for valid inputs, but the claim
quantifies over all inputs reaching the scoring operation) it silently
returns the ordinary negative value `1 / total_cost`.  Amended claim,
proved here: the scoring operation signals the fatal error exactly when
`total_cost = 0`, and for `total_cost < 0` it silently returns an
ordinary negative score. -/
theorem c3_score_error_iff (v : List ℕ) (p : ℕ → ℚ) (alpha beta : ℚ) :
    (score v p alpha beta = none ↔ total_cost v p alpha beta = 0) ∧
      (total_cost v p alpha beta < 0 →
        ∃ s, score v p alpha beta = some s ∧ s < 0) := by
  constructor
  · constructor
    · intro h
      by_contra hne
      rw [score_eq_some v p alpha beta hne] at h
      exact Option.noConfusion h
    · intro h
      rw [score, if_pos h]
  · intro h
    refine ⟨scoreVal v p alpha beta, score_eq_some v p alpha beta (ne_of_lt h), ?_⟩
    rw [scoreVal]
    exact one_div_neg.mpr h

/-- Counterexample to C3 as stated: with the all-pre plan, a probability
map that is constantly 1 (so `disturb = 0`) and the weight pair
`alpha = -1`, `beta = 1`, the total cost is `-2 ≤ 0`, yet `score`
silently returns the ordinary value `-(1/2)` instead of signalling a
fatal computation error. -/
theorem c3_counterexample :
    total_cost [12, 13, 14] (fun _ => 1) (-1) 1 ≤ 0 ∧
      score [12, 13, 14] (fun _ => 1) (-1) 1 = some (-(1 / 2)) := by
  have htc : total_cost [12, 13, 14] (fun _ => 1) (-1) 1 = -2 := by
    rw [total_cost, fatigue_plan_all_pre]
    norm_num [disturb]
  constructor
  · rw [htc]; norm_num
  · rw [score, if_neg (by rw [htc]; norm_num), scoreVal, htc]
    norm_num

theorem c3_witness :
    ∃ s, score [12, 13, 14] (fun _ => 1) (-1) 1 = some s ∧ s < 0 :=
  (c3_score_error_iff [12, 13, 14] (fun _ => 1) (-1) 1).2
    (by rw [total_cost, fatigue_plan_all_pre]; norm_num [disturb])

/-! ### Positivity helpers for the cost functions -/

lemma w_pos (n : ℕ) : 0 < w n := by
  rw [w]
  positivity

lemma fatigue_nonneg (v : List ℕ) : 0 ≤ fatigue v := by
  rw [fatigue]
  apply List.sum_nonneg
  intro x hx
  obtain ⟨n, _, rfl⟩ := List.mem_map.mp hx
  exact (w_pos n).le

lemma fatigue_ge_two_of_mem (plan : List ℕ) (hplan : plan ∈ generate_plans) :
    2 ≤ fatigue plan := by
  rw [generate_plans_eq] at hplan
  simp only [List.mem_cons, List.not_mem_nil, or_false] at hplan
  rcases hplan with rfl | rfl | rfl | rfl
  · rw [fatigue_plan_post]; norm_num
  · rw [fatigue_plan_one_pre]
  · rw [fatigue_plan_two_pre]
  · rw [fatigue_plan_all_pre]

lemma total_cost_pos_of (v : List ℕ) (p : ℕ → ℚ) (alpha beta : ℚ)
    (hα : 0 < alpha) (hβ : 0 < beta) (hf : 0 < fatigue v)
    (hd : 0 ≤ disturb v p) :
    0 < total_cost v p alpha beta := by
  rw [total_cost]
  have h1 : 0 < alpha * fatigue v := mul_pos hα hf
  have h2 : 0 ≤ beta * disturb v p := mul_nonneg hβ.le hd
  linarith

lemma total_cost_pos_of_disturb (v : List ℕ) (p : ℕ → ℚ) (alpha beta : ℚ)
    (hα : 0 < alpha) (hβ : 0 < beta) (hd : 0 < disturb v p) :
    0 < total_cost v p alpha beta := by
  rw [total_cost]
  have h1 : 0 ≤ alpha * fatigue v := mul_nonneg hα.le (fatigue_nonneg v)
  have h2 : 0 < beta * disturb v p := mul_pos hβ hd
  linarith

/-! ### C6, C7, C8 -/

/-- C6: for every generated plan, every probability map with values in
`[0, 1]` on the plan's days, and strictly positive weights, the
denominator `alpha * fatigue + beta * disturb` is strictly positive
(every generated plan leaves workday blocks of total weight ≥ 2 and the
disturbance is nonnegative), so the division never faults and the
returned score is positive. -/
theorem c6_score_pos (plan : List ℕ) (hplan : plan ∈ generate_plans)
    (p : ℕ → ℚ) (hp : ∀ d ∈ plan, 0 ≤ p d ∧ p d ≤ 1)
    (alpha beta : ℚ) (hα : 0 < alpha) (hβ : 0 < beta) :
    0 < total_cost plan p alpha beta ∧
      ∃ s, score plan p alpha beta = some s ∧ 0 < s := by
  have hd0 : 0 ≤ disturb plan p :=
    disturb_nonneg plan p (fun d hd => (hp d hd).2)
  have hf : 0 < fatigue plan :=
    lt_of_lt_of_le (by norm_num) (fatigue_ge_two_of_mem plan hplan)
  have htc := total_cost_pos_of plan p alpha beta hα hβ hf hd0
  exact ⟨htc, scoreVal plan p alpha beta,
    score_eq_some plan p alpha beta (ne_of_gt htc), one_div_pos.mpr htc⟩

theorem c6_witness :
    0 < total_cost [12, 13, 14] (fun _ => 1 / 2) 1 1 ∧
      ∃ s, score [12, 13, 14] (fun _ => 1 / 2) 1 1 = some s ∧ 0 < s :=
  c6_score_pos [12, 13, 14] (by rw [generate_plans_eq]; decide)
    (fun _ => 1 / 2) (fun d _ => by norm_num) 1 1 (by norm_num) (by norm_num)

/-- C7: holding the plan, the probability map (with values ≤ 1 on the
plan's days) and the other weight fixed, the returned score is strictly
decreasing in `alpha` whenever `fatigue > 0`, and strictly decreasing in
`beta` whenever `disturb > 0`, for positive weights. -/
theorem c7_score_strict_decreasing (v : List ℕ) (p : ℕ → ℚ)
    (hp : ∀ d ∈ v, p d ≤ 1) :
    (∀ alpha alpha' beta : ℚ, 0 < alpha → 0 < alpha' → 0 < beta →
      0 < fatigue v → alpha < alpha' →
      ∃ s s', score v p alpha beta = some s ∧
        score v p alpha' beta = some s' ∧ s' < s) ∧
    (∀ alpha beta beta' : ℚ, 0 < alpha → 0 < beta → 0 < beta' →
      0 < disturb v p → beta < beta' →
      ∃ s s', score v p alpha beta = some s ∧
        score v p alpha beta' = some s' ∧ s' < s) := by
  have hd0 : 0 ≤ disturb v p := disturb_nonneg v p hp
  constructor
  · intro alpha alpha' beta hα hα' hβ hf hlt
    have htc := total_cost_pos_of v p alpha beta hα hβ hf hd0
    have htc' := total_cost_pos_of v p alpha' beta hα' hβ hf hd0
    have hcost : total_cost v p alpha beta < total_cost v p alpha' beta := by
      rw [total_cost, total_cost]
      have := mul_lt_mul_of_pos_right hlt hf
      linarith
    exact ⟨scoreVal v p alpha beta, scoreVal v p alpha' beta,
      score_eq_some v p alpha beta (ne_of_gt htc),
      score_eq_some v p alpha' beta (ne_of_gt htc'),
      one_div_lt_one_div_of_lt htc hcost⟩
  · intro alpha beta beta' hα hβ hβ' hdist hlt
    have htc := total_cost_pos_of_disturb v p alpha beta hα hβ hdist
    have htc' := total_cost_pos_of_disturb v p alpha beta' hα hβ' hdist
    have hcost : total_cost v p alpha beta < total_cost v p alpha beta' := by
      rw [total_cost, total_cost]
      have := mul_lt_mul_of_pos_right hlt hdist
      linarith
    exact ⟨scoreVal v p alpha beta, scoreVal v p alpha beta',
      score_eq_some v p alpha beta (ne_of_gt htc),
      score_eq_some v p alpha beta' (ne_of_gt htc'),
      one_div_lt_one_div_of_lt htc hcost⟩

theorem c7_witness :
    ∃ s s', score [12, 13, 14] (fun _ => 1 / 2) 1 1 = some s ∧
      score [12, 13, 14] (fun _ => 1 / 2) 2 1 = some s' ∧ s' < s :=
  (c7_score_strict_decreasing [12, 13, 14] (fun _ => 1 / 2)
      (fun d _ => by norm_num)).1 1 2 1
    (by norm_num) (by norm_num) (by norm_num)
    (by rw [fatigue_plan_all_pre]; norm_num) (by norm_num)

/-- C8: among the generated plans, with fixed probabilities (values ≤ 1
on the plan's days) and fixed positive weights, a plan whose leave days
leave a strictly shorter maximum contiguous-workday block scores at
least as high as a plan leaving a longer maximum block, when the
disturbance terms of the two plans coincide. -/
theorem c8_shorter_max_block_scores_ge (pA pB : List ℕ)
    (hA : pA ∈ generate_plans) (hB : pB ∈ generate_plans)
    (p : ℕ → ℚ) (hpA : ∀ d ∈ pA, p d ≤ 1)
    (alpha beta : ℚ) (hα : 0 < alpha) (hβ : 0 < beta)
    (hd : disturb pA p = disturb pB p)
    (hmax : maxBlock pA < maxBlock pB) :
    ∃ sA sB, score pA p alpha beta = some sA ∧
      score pB p alpha beta = some sB ∧ sB ≤ sA := by
  have key : fatigue pA ≤ fatigue pB ∧ 0 < fatigue pA := by
    rw [generate_plans_eq] at hA hB
    simp only [List.mem_cons, List.not_mem_nil, or_false] at hA hB
    rcases hA with rfl | rfl | rfl | rfl <;> rcases hB with rfl | rfl | rfl | rfl <;>
      first
      | exact absurd hmax (by decide)
      | (constructor <;>
          simp only [fatigue_plan_post, fatigue_plan_one_pre,
            fatigue_plan_two_pre, fatigue_plan_all_pre] <;> norm_num)
  obtain ⟨hff, hfA⟩ := key
  have hdA : 0 ≤ disturb pA p := disturb_nonneg pA p hpA
  have htcA : 0 < total_cost pA p alpha beta :=
    total_cost_pos_of pA p alpha beta hα hβ hfA hdA
  have htcB : 0 < total_cost pB p alpha beta := by
    rw [total_cost, ← hd]
    have h1 : 0 < alpha * fatigue pB := mul_pos hα (lt_of_lt_of_le hfA hff)
    have h2 : 0 ≤ beta * disturb pA p := mul_nonneg hβ.le hdA
    linarith
  have hcost : total_cost pA p alpha beta ≤ total_cost pB p alpha beta := by
    rw [total_cost, total_cost, ← hd]
    have := mul_le_mul_of_nonneg_left hff hα.le
    linarith
  exact ⟨scoreVal pA p alpha beta, scoreVal pB p alpha beta,
    score_eq_some pA p alpha beta (ne_of_gt htcA),
    score_eq_some pB p alpha beta (ne_of_gt htcB),
    one_div_le_one_div_of_le htcA hcost⟩

theorem c8_witness :
    ∃ sA sB, score [12, 13, 14] (fun _ => 1 / 2) 1 1 = some sA ∧
      score [24, 25, 26] (fun _ => 1 / 2) 1 1 = some sB ∧ sB ≤ sA :=
  c8_shorter_max_block_scores_ge [12, 13, 14] [24, 25, 26]
    (by rw [generate_plans_eq]; decide) (by rw [generate_plans_eq]; decide)
    (fun _ => 1 / 2) (fun d _ => by norm_num) 1 1
    (by norm_num) (by norm_num) (by simp [disturb]) (by decide)

/-! ### Stability of the ranking sort

Elements with a given score value keep their original relative order
through the sort: filtering the sorted output by any fixed score value
gives exactly the filter of the input. -/

lemma filter_score_orderedInsert (q : ℚ) (a : List ℕ × ℚ)
    (l : List (List ℕ × ℚ)) :
    (l.orderedInsert scoreGE a).filter (fun x => decide (x.2 = q)) =
      if a.2 = q then a :: l.filter (fun x => decide (x.2 = q))
      else l.filter (fun x => decide (x.2 = q)) := by
  rw [List.orderedInsert_eq_take_drop, List.filter_append, List.filter_cons]
  by_cases ha : a.2 = q
  · rw [if_pos ha, if_pos (by simpa using ha)]
    have htw : (List.takeWhile (fun b => decide ¬scoreGE a b) l).filter
        (fun x => decide (x.2 = q)) = [] := by
      rw [List.filter_eq_nil_iff]
      intro x hx
      have h1 := List.mem_takeWhile_imp hx
      simp only [decide_eq_true_eq, scoreGE] at h1 ⊢
      intro h2
      exact h1 (le_of_eq (by rw [h2, ha]))
    rw [htw]
    conv_rhs =>
      rw [← List.takeWhile_append_dropWhile (fun b => decide ¬scoreGE a b) l,
        List.filter_append, htw]
    simp
  · rw [if_neg ha, if_neg (by simpa using ha)]
    conv_rhs =>
      rw [← List.takeWhile_append_dropWhile (fun b => decide ¬scoreGE a b) l,
        List.filter_append]

lemma filter_score_insertionSort (q : ℚ) (l : List (List ℕ × ℚ)) :
    (List.insertionSort scoreGE l).filter (fun x => decide (x.2 = q)) =
      l.filter (fun x => decide (x.2 = q)) := by
  induction l with
  | nil => rfl
  | cons a l ih =>
    simp only [List.insertionSort]
    rw [filter_score_orderedInsert, List.filter_cons]
    by_cases ha : a.2 = q
    · rw [if_pos ha, if_pos (by simpa using ha), ih]
    · rw [if_neg ha, if_neg (by simpa using ha), ih]

/-! ### C4 -/

/-- C4: the ranking computes a score for every generated plan (the
output is a permutation of the scored enumeration, and under the
caller's guarantee that no total cost is zero each output pair carries
exactly the value `score` returns for its plan), returns the pairs
sorted descending by score, breaks ties by the original enumeration
order (filtering output and input by any fixed score value gives the
same list, i.e. the sort is stable), puts a maximal-score entry on top,
and is deterministic (it is a pure function, so running it twice on
identical inputs trivially yields the identical ordering). -/
theorem c4_rank_plans_spec (p : ℕ → ℚ) (alpha beta : ℚ)
    (hcov : ∀ plan ∈ generate_plans, total_cost plan p alpha beta ≠ 0) :
    List.Perm (rankPlans p alpha beta) (scoredList p alpha beta) ∧
      List.Sorted scoreGE (rankPlans p alpha beta) ∧
      (∀ q : ℚ, (rankPlans p alpha beta).filter (fun x => decide (x.2 = q)) =
        (scoredList p alpha beta).filter (fun x => decide (x.2 = q))) ∧
      (∀ x ∈ rankPlans p alpha beta, score x.1 p alpha beta = some x.2) ∧
      (∃ top rest, rankPlans p alpha beta = top :: rest ∧
        ∀ x ∈ rankPlans p alpha beta, x.2 ≤ top.2) ∧
      rankPlans p alpha beta = rankPlans p alpha beta := by
  refine ⟨List.perm_insertionSort scoreGE _,
    List.sorted_insertionSort scoreGE _,
    fun q => filter_score_insertionSort q _, ?_, ?_, rfl⟩
  · intro x hx
    have hx' : x ∈ scoredList p alpha beta :=
      (List.perm_insertionSort scoreGE _).mem_iff.mp hx
    obtain ⟨plan, hplan, rfl⟩ := List.mem_map.mp hx'
    exact score_eq_some plan p alpha beta (hcov plan hplan)
  · have hlen : (rankPlans p alpha beta).length = 4 := by
      rw [rankPlans, List.length_insertionSort, scoredList, List.length_map,
        generate_plans_eq]
      rfl
    cases hr : rankPlans p alpha beta with
    | nil => rw [hr] at hlen; exact absurd hlen (by norm_num)
    | cons top rest =>
      refine ⟨top, rest, rfl, ?_⟩
      intro x hx
      rcases List.mem_cons.mp hx with rfl | hx'
      · exact le_refl _
      · have hsorted : List.Sorted scoreGE (top :: rest) := by
          rw [← hr]
          exact List.sorted_insertionSort scoreGE _
        exact List.rel_of_sorted_cons hsorted x hx'

theorem c4_witness :
    List.Perm (rankPlans (fun _ => 1 / 2) 1 1) (scoredList (fun _ => 1 / 2) 1 1) :=
  (c4_rank_plans_spec (fun _ => 1 / 2) 1 1
    (by
      rw [generate_plans_eq]
      intro plan hplan
      simp only [List.mem_cons, List.not_mem_nil, or_false] at hplan
      rcases hplan with rfl | rfl | rfl | rfl <;>
        rw [total_cost] <;>
        simp only [fatigue_plan_post, fatigue_plan_one_pre,
          fatigue_plan_two_pre, fatigue_plan_all_pre, disturb_cons,
          disturb_nil] <;>
        norm_num)).1

end Festival
